import Mathlib

/-!
Verification of the rapidid identifier codec.

The Go package under scrutiny builds 19-byte identifiers
(7 timestamp bytes followed by 12 random bytes, optionally preceded by a
3-character tag plus a `-` separator) and serialises them with the
mr-tron base58 big-integer encoding over the ordered alphabet
`123456789ABCDEFGHJKLMNPQRSTUVWXYZabcdefghijkmnopqrstuvwxyz`.

Byte strings and character strings are both modelled as `List Nat`
(each entry one byte / one ASCII code).  Functions that can panic in Go
return `Option`; functions that return `error` return a sum with an
explicit error code.  Wall-clock time and the CSPRNG are oracles: the
tick count and the random bytes are explicit parameters.
-/

/-- Ordered base-58 alphabet as ASCII codes, from
`base58.NewAlphabet("123456789ABCDEFGHJKLMNPQRSTUVWXYZabcdefghijkmnopqrstuvwxyz")`. -/
def alphabetChars : List Nat :=
  [49, 50, 51, 52, 53, 54, 55, 56, 57,
   65, 66, 67, 68, 69, 70, 71, 72,
   74, 75, 76, 77, 78,
   80, 81, 82, 83, 84, 85, 86, 87, 88, 89, 90,
   97, 98, 99, 100, 101, 102, 103, 104, 105, 106, 107,
   109, 110, 111, 112, 113, 114, 115, 116, 117, 118, 119, 120, 121, 122]

/-- Character for a base-58 digit (the alphabet's `encode` table). -/
def encodeChar (d : Nat) : Nat := alphabetChars.getD d 0

/-- Digit for a character (the alphabet's `decode` table); `none` when the
character is outside the alphabet. -/
def decodeChar (c : Nat) : Option Nat := alphabetChars.findIdx? (fun a => a == c)

/-- Value of a big-endian digit list in base `b`. -/
def beVal (b : Nat) (l : List Nat) : Nat := l.foldl (fun acc d => acc * b + d) 0

/-- Fuelled big-endian digit expansion, most significant digit first;
the minimal (no leading zero) representation once the fuel covers `n`. -/
def beDigitsAux (b : Nat) : Nat → Nat → List Nat
  | 0, _ => []
  | fuel + 1, n => if n = 0 then [] else beDigitsAux b fuel (n / b) ++ [n % b]

/-- Minimal big-endian digits of `n` in base `b` (64 digits of fuel, enough
for every value handled by the codec). -/
def beDigits (b n : Nat) : List Nat := beDigitsAux b 64 n

/-- Number of leading entries equal to `a`. -/
def countLeading (a : Nat) : List Nat → Nat
  | [] => 0
  | x :: xs => if x = a then countLeading a xs + 1 else 0

/-- mr-tron `FastBase58EncodingAlphabet`: one `'1'` per leading zero byte,
then the unpadded base-58 digits of the big-endian value. -/
def b58Encode (bs : List Nat) : List Nat :=
  List.replicate (countLeading 0 bs) 49 ++ (beDigits 58 (beVal 256 bs)).map encodeChar

/-- Accumulating decode of a character list into the base-58 value; fails on
the first character outside the alphabet. -/
def b58DecodeNum : List Nat → Nat → Option Nat
  | [], acc => some acc
  | c :: cs, acc =>
    match decodeChar c with
    | some d => b58DecodeNum cs (acc * 58 + d)
    | none => none

/-- mr-tron `FastBase58DecodingAlphabet`: rejects the empty string, keeps one
zero byte per leading `'1'`, then appends the minimal big-endian bytes of the
decoded value. -/
def b58Decode (cs : List Nat) : Option (List Nat) :=
  if cs.isEmpty then none
  else
    match b58DecodeNum cs 0 with
    | none => none
    | some v => some (List.replicate (countLeading 49 cs) 0 ++ beDigits 256 v)

/-- Go byte-string comparison `s < t`: bytewise lexicographic, a strict
proper prefix is smaller. -/
def lexLt : List Nat → List Nat → Bool
  | [], [] => false
  | [], _ :: _ => true
  | _ :: _, [] => false
  | a :: as, b :: bs => if a < b then true else if b < a then false else lexLt as bs

/-- Constant `prefixAllowedLen`. -/
def pfxAllowedLen : Nat := 3

/-- Constant `timeBytesLen`. -/
def timeBytesLen : Nat := 7

/-- Constant `randomBytesLen`. -/
def randomBytesLen : Nat := 12

/-- Constant `byteLength = timeBytesLen + randomBytesLen`. -/
def byteLength : Nat := timeBytesLen + randomBytesLen

/-- Constant `stringEncodedLen`. -/
def stringEncodedLen : Nat := 25

/-- Constant `stringEncodedLenWithPrefix = 3 + 1 + stringEncodedLen`. -/
def stringEncodedLenWithPfx : Nat := pfxAllowedLen + 1 + stringEncodedLen

/-- ASCII code of the separator `'-'`. -/
def sepByte : Nat := 45

/-- Go `strings.TrimSuffix(s, "-")`. -/
def trimSuffixSep (s : List Nat) : List Nat :=
  if s.getLast? = some sepByte then s.dropLast else s

/-- Models `validatePrefix` (source lines 221-235): with
`separatorAsInvalid = false` a single trailing separator is stripped first;
then the string must contain no `'-'` and no `' '`, and have length 0 or 3.
`true` means no error. -/
def validatePfx (str : List Nat) (sepAsInvalid : Bool) : Bool :=
  let s := if sepAsInvalid then str else trimSuffixSep str
  !(s.contains sepByte) && !(s.contains 32) && (s.length == 0 || s.length == pfxAllowedLen)

/-- Models the two statements `ts := uint64(time.Since(epochTime) / 100);
ts = (ts << 8) & 0xFFFFFFFFFFFFFF00` in `newID`, with `ticks` the elapsed
100ns tick count (the value of the `uint64` conversion). -/
def tsField (ticks : Nat) : Nat :=
  ((ticks % 2 ^ 64 * 256) % 2 ^ 64) &&& 0xFFFFFFFFFFFFFF00

/-- The 7 timestamp bytes written by `newID`:
`id[p+i] = byte(ts >> (56 - 8*i))` for `i = 0..6`. -/
def timeBytes (ticks : Nat) : List Nat :=
  [tsField ticks >>> 56 % 256, tsField ticks >>> 48 % 256, tsField ticks >>> 40 % 256,
   tsField ticks >>> 32 % 256, tsField ticks >>> 24 % 256, tsField ticks >>> 16 % 256,
   tsField ticks >>> 8 % 256]

/-- The 12 random bytes as stored: `copy(id[prefixLen+7:], rnd)` into a
zero-initialised buffer keeps `min 12 (len rnd)` bytes of `rnd` and leaves
the rest zero.  `getRandomBytes` always supplies exactly 12 bytes. -/
def rndTail (rnd : List Nat) : List Nat :=
  rnd.take randomBytesLen ++ List.replicate (randomBytesLen - rnd.length) 0

/-- Models `newID` (source lines 156-178): validate the tag, append `'-'`
when it is non-empty, then 7 timestamp bytes, then the random tail.
`none` models the error return. -/
def newID (pfx : List Nat) (ticks : Nat) (rnd : List Nat) : Option (List Nat) :=
  if validatePfx pfx true then
    some ((if pfx.length > 0 then pfx ++ [sepByte] else []) ++ timeBytes ticks ++ rndTail rnd)
  else none

/-- Models `ID.String` (source lines 64-80): when the stored bytes are longer
than 19, split at the first separator (panicking — `none` — when there is
none) and base58-encode only the part after it; otherwise encode everything. -/
def idString (t : List Nat) : Option (List Nat) :=
  if t.length > byteLength then
    match t.findIdx? (fun a => a == sepByte) with
    | none => none
    | some i => some (t.take (i + 1) ++ b58Encode (t.drop (i + 1)))
  else some (b58Encode t)

/-- Error values returned by the codec. -/
inductive ParseErr
  | stringSize
  | invalidEncoding
  | bytesSize
  | pfxInvalid
  | unsupportedType
  deriving DecidableEq

/-- Result of a fallible codec operation. -/
inductive PResult
  | err (e : ParseErr)
  | ok (id : List Nat)
  deriving DecidableEq

/-- Models `FromBytes` (source lines 204-211): reject fewer than 19 bytes,
otherwise return an owned copy of all supplied bytes. -/
def FromBytes (bs : List Nat) : PResult :=
  if bs.length < byteLength then .err .bytesSize else .ok bs

/-- Models `parseInternal` (source lines 190-202). -/
def parseInternal (pfx text : List Nat) : PResult :=
  if text.length < stringEncodedLen then .err .stringSize
  else if !(validatePfx pfx false) then .err .pfxInvalid
  else
    match b58Decode text with
    | none => .err .invalidEncoding
    | some bs => FromBytes (pfx ++ bs)

/-- Models `Parse` (source lines 180-188): split at the first separator if
any, otherwise require at least 25 characters. -/
def Parse (text : List Nat) : PResult :=
  match text.findIdx? (fun a => a == sepByte) with
  | some i => parseInternal (text.take (i + 1)) (text.drop (i + 1))
  | none =>
    if text.length ≥ stringEncodedLen then parseInternal [] text else .err .stringSize

/-- Models `GenerateWithPrefix` (source lines 42-49): strip one trailing
separator, call `New`, panic (`none`) on error, and render the text. -/
def GenerateWithPfx (pfx : List Nat) (ticks : Nat) (rnd : List Nat) : Option (List Nat) :=
  match newID (trimSuffixSep pfx) ticks rnd with
  | none => none
  | some id => idString id

/-- Models `ID.Bytes`: the raw byte representation. -/
def Bytes (t : List Nat) : List Nat := t

/-- Models `ID.Value`: the SQL driver value, the raw bytes. -/
def Value (t : List Nat) : List Nat := t

/-- Outcome of `Scan` on a receiver: untouched receiver, receiver set to a
new identifier, or an error (which also leaves the receiver untouched). -/
inductive ScanOut
  | noChange
  | set (id : List Nat)
  | err (e : ParseErr)
  deriving DecidableEq

/-- Whether a scan outcome is an error. -/
def ScanOut.isErr : ScanOut → Bool
  | .err _ => true
  | _ => false

/-- Models the length dispatch of `ID.scan` (source lines 143-154). -/
def scan (b : List Nat) : ScanOut :=
  if b.length == 0 then .noChange
  else if b.length == byteLength || b.length == pfxAllowedLen + byteLength then
    match FromBytes b with
    | .ok id => .set id
    | .err e => .err e
  else if b.length == stringEncodedLen || b.length == pfxAllowedLen + stringEncodedLen then
    match Parse b with
    | .ok id => .set id
    | .err e => .err e
  else .err .bytesSize

/-- The shapes of untyped input accepted by `ID.Scan` (source lines 89-104):
`nil`, `[]byte`, `bytes.Buffer`, `*bytes.Buffer`, `string`, anything else. -/
inductive ScanSrc
  | nil
  | bytes (b : List Nat)
  | buffer (b : List Nat)
  | bufferPtr (b : List Nat)
  | str (s : List Nat)
  | other

/-- Models `ID.Scan`: extract the bytes of the supported shapes and delegate
to the length dispatch; reject unknown shapes. -/
def Scan : ScanSrc → ScanOut
  | .nil => scan []
  | .bytes b => scan b
  | .buffer b => scan b
  | .bufferPtr b => scan b
  | .str s => scan s
  | .other => .err .unsupportedType

/-- The part of a parsed text after the first separator (the whole text when
there is no separator): the characters `Parse` hands to the base58 decoder. -/
def payloadText (text : List Nat) : List Nat :=
  match text.findIdx? (fun a => a == sepByte) with
  | some i => text.drop (i + 1)
  | none => text

/-! ### Radix arithmetic for the big-endian digit functions -/

theorem beVal_foldl_acc (b : Nat) (l : List Nat) :
    ∀ a : Nat, List.foldl (fun acc d => acc * b + d) a l = a * b ^ l.length + beVal b l := by
  induction l with
  | nil => intro a; simp [beVal]
  | cons x xs ih =>
    intro a
    have hx : beVal b (x :: xs) = x * b ^ xs.length + beVal b xs := by
      show List.foldl _ (0 * b + x) xs = _
      rw [ih (0 * b + x)]
      ring
    show List.foldl _ (a * b + x) xs = _
    rw [ih (a * b + x), hx, List.length_cons]
    ring

theorem beVal_cons (b x : Nat) (xs : List Nat) :
    beVal b (x :: xs) = x * b ^ xs.length + beVal b xs := by
  show List.foldl _ (0 * b + x) xs = _
  rw [beVal_foldl_acc]
  ring

theorem beVal_append (b : Nat) (l1 l2 : List Nat) :
    beVal b (l1 ++ l2) = beVal b l1 * b ^ l2.length + beVal b l2 := by
  unfold beVal
  rw [List.foldl_append]
  exact beVal_foldl_acc b l2 _

theorem beVal_lt (b : Nat) (l : List Nat) (h : ∀ x ∈ l, x < b) :
    beVal b l < b ^ l.length := by
  induction l with
  | nil => simp [beVal]
  | cons x xs ih =>
    have hx : x < b := h x (List.mem_cons_self x xs)
    have hxs : beVal b xs < b ^ xs.length := ih (fun y hy => h y (List.mem_cons_of_mem x hy))
    rw [beVal_cons, List.length_cons, pow_succ]
    calc x * b ^ xs.length + beVal b xs
        < x * b ^ xs.length + b ^ xs.length := by omega
      _ = (x + 1) * b ^ xs.length := by ring
      _ ≤ b * b ^ xs.length := Nat.mul_le_mul_right _ hx
      _ = b ^ xs.length * b := by ring

theorem beVal_replicate_zero (b z : Nat) : beVal b (List.replicate z 0) = 0 := by
  induction z with
  | zero => rfl
  | succ n ih => rw [List.replicate_succ, beVal_cons, ih]; simp

theorem beVal_replicate_zero_append (b z : Nat) (l : List Nat) :
    beVal b (List.replicate z 0 ++ l) = beVal b l := by
  rw [beVal_append, beVal_replicate_zero]
  simp

theorem beVal_eq_ofDigits (b : Nat) (l : List Nat) :
    beVal b l = Nat.ofDigits b l.reverse := by
  induction l using List.reverseRecOn with
  | nil => rfl
  | append_singleton xs x ih =>
    have h1 : beVal b [x] = x := by simp [beVal]
    rw [beVal_append, List.reverse_append, h1]
    simp only [List.reverse_cons, List.reverse_nil, List.nil_append, List.singleton_append]
    rw [Nat.ofDigits_cons, ih]
    simp [List.length_cons]
    ring

theorem beDigitsAux_eq (b : Nat) (hb : 2 ≤ b) :
    ∀ fuel n : Nat, n < b ^ fuel → beDigitsAux b fuel n = (Nat.digits b n).reverse := by
  intro fuel
  induction fuel with
  | zero =>
    intro n hn
    have h0 : n = 0 := by simpa using hn
    subst h0
    simp [beDigitsAux]
  | succ f ih =>
    intro n hn
    by_cases h0 : n = 0
    · subst h0; simp [beDigitsAux]
    · have hstep : beDigitsAux b (f + 1) n = beDigitsAux b f (n / b) ++ [n % b] := by
        simp [beDigitsAux, h0]
      rw [hstep, Nat.digits_def' (by omega : 1 < b) (Nat.pos_of_ne_zero h0), List.reverse_cons,
        ih (n / b) ((Nat.div_lt_iff_lt_mul (by omega : 0 < b)).mpr (by rw [← pow_succ]; exact hn))]

theorem beDigits_eq (b n : Nat) (hb : 2 ≤ b) (hn : n < b ^ 64) :
    beDigits b n = (Nat.digits b n).reverse := beDigitsAux_eq b hb 64 n hn

theorem beVal_beDigits (b n : Nat) (hb : 2 ≤ b) (hn : n < b ^ 64) :
    beVal b (beDigits b n) = n := by
  rw [beDigits_eq b n hb hn, beVal_eq_ofDigits, List.reverse_reverse, Nat.ofDigits_digits]

theorem beDigits_beVal (b : Nat) (l : List Nat) (hb : 2 ≤ b) (hlen : l.length ≤ 64)
    (hlt : ∀ x ∈ l, x < b) (hhead : ∀ x t, l = x :: t → x ≠ 0) :
    beDigits b (beVal b l) = l := by
  have hv : beVal b l < b ^ 64 :=
    lt_of_lt_of_le (beVal_lt b l hlt) (Nat.pow_le_pow_right (by omega) hlen)
  rw [beDigits_eq _ _ hb hv, beVal_eq_ofDigits]
  rw [Nat.digits_ofDigits b (by omega) l.reverse
    (by intro d hd; exact hlt d (List.mem_reverse.mp hd))
    (by
      intro hne
      rw [List.getLast_reverse hne]
      cases l with
      | nil => simp at hne
      | cons x t =>
        have hx : x ≠ 0 := hhead x t rfl
        simpa using hx)]
  exact List.reverse_reverse l

theorem beDigits_len (b n : Nat) (hb : 2 ≤ b) (h0 : n ≠ 0) (hn : n < b ^ 64) :
    (beDigits b n).length = Nat.log b n + 1 := by
  rw [beDigits_eq b n hb hn, List.length_reverse, Nat.digits_len b n (by omega) h0]

theorem beDigits_mem_lt (b n : Nat) (hb : 2 ≤ b) (hn : n < b ^ 64) :
    ∀ d ∈ beDigits b n, d < b := by
  rw [beDigits_eq b n hb hn]
  intro d hd
  exact Nat.digits_lt_base (by omega) (List.mem_reverse.mp hd)

theorem beDigits_head_ne_zero (b n : Nat) (hb : 2 ≤ b) (h0 : n ≠ 0) (hn : n < b ^ 64) :
    ∀ x t, beDigits b n = x :: t → x ≠ 0 := by
  intro x t hxt hx0
  subst hx0
  have h := beDigits_eq b n hb hn
  rw [h] at hxt
  have h2 : Nat.digits b n = t.reverse ++ [0] := by
    have h3 := congrArg List.reverse hxt
    simpa using h3
  have h5 : (Nat.digits b n).getLast? = some 0 := by rw [h2]; simp
  exact Nat.getLast_digit_ne_zero b h0 ((List.getLast_eq_iff_getLast_eq_some _).mpr h5)

theorem beDigits_zero (b : Nat) : beDigits b 0 = [] := by
  simp [beDigits, beDigitsAux]

/-! ### Leading-symbol counting -/

theorem countLeading_le_length (a : Nat) (l : List Nat) : countLeading a l ≤ l.length := by
  induction l with
  | nil => simp [countLeading]
  | cons x xs ih =>
    by_cases hx : x = a
    · simp [countLeading, hx]; omega
    · simp [countLeading, hx]

theorem countLeading_decomp (a : Nat) (l : List Nat) :
    l = List.replicate (countLeading a l) a ++ l.drop (countLeading a l) ∧
      ∀ x t, l.drop (countLeading a l) = x :: t → x ≠ a := by
  induction l with
  | nil => simp [countLeading]
  | cons y ys ih =>
    by_cases hy : y = a
    · subst hy
      have hc : countLeading y (y :: ys) = countLeading y ys + 1 := by simp [countLeading]
      rw [hc]
      constructor
      · rw [List.replicate_succ]
        simpa using ih.1
      · simpa using ih.2
    · have hc : countLeading a (y :: ys) = 0 := by simp [countLeading, hy]
      rw [hc]
      constructor
      · simp
      · intro x t hxt hxa
        rw [List.drop_zero] at hxt
        cases hxt
        exact hy hxa

theorem countLeading_replicate_append (a z : Nat) (l : List Nat) :
    countLeading a (List.replicate z a ++ l) = z + countLeading a l := by
  induction z with
  | zero => simp
  | succ n ih =>
    rw [List.replicate_succ, List.cons_append]
    simp [countLeading, ih]
    omega

theorem countLeading_cons_ne (a x : Nat) (xs : List Nat) (h : x ≠ a) :
    countLeading a (x :: xs) = 0 := by
  simp [countLeading, h]

/-! ### Finite facts about the alphabet -/

theorem decodeChar_encodeChar : ∀ d, d < 58 → decodeChar (encodeChar d) = some d := by decide

theorem encodeChar_ne_fortynine : ∀ d, d < 58 → d ≠ 0 → encodeChar d ≠ 49 := by decide

theorem encodeChar_ne_sep : ∀ d, d < 58 → encodeChar d ≠ 45 := by decide

theorem encodeChar_lt_of_lt : ∀ i, i < 58 → ∀ j, j < 58 → i < j → encodeChar i < encodeChar j := by
  decide

theorem encodeChar_zero : encodeChar 0 = 49 := rfl

/-! ### Decode of well-formed character lists -/

theorem b58DecodeNum_replicate_one (z : Nat) (cs : List Nat) :
    b58DecodeNum (List.replicate z 49 ++ cs) 0 = b58DecodeNum cs 0 := by
  induction z with
  | zero => simp
  | succ n ih =>
    rw [List.replicate_succ, List.cons_append]
    show b58DecodeNum (List.replicate n 49 ++ cs) (0 * 58 + 0) = _
    simpa using ih

theorem b58DecodeNum_map_encodeChar (ds : List Nat) :
    ∀ acc : Nat, (∀ d ∈ ds, d < 58) →
      b58DecodeNum (ds.map encodeChar) acc = some (List.foldl (fun a d => a * 58 + d) acc ds) := by
  induction ds with
  | nil => intro acc _; rfl
  | cons d ds ih =>
    intro acc h
    have hd : d < 58 := h d (List.mem_cons_self d ds)
    show b58DecodeNum (encodeChar d :: ds.map encodeChar) acc = _
    rw [show b58DecodeNum (encodeChar d :: ds.map encodeChar) acc =
        match decodeChar (encodeChar d) with
        | some e => b58DecodeNum (ds.map encodeChar) (acc * 58 + e)
        | none => none from rfl]
    rw [decodeChar_encodeChar d hd]
    exact ih (acc * 58 + d) (fun y hy => h y (List.mem_cons_of_mem d hy))

theorem b58DecodeNum_isSome (cs : List Nat) :
    ∀ acc : Nat, (∀ c ∈ cs, (decodeChar c).isSome) → ∃ v, b58DecodeNum cs acc = some v := by
  induction cs with
  | nil => intro acc _; exact ⟨acc, rfl⟩
  | cons c cs ih =>
    intro acc h
    have hc : (decodeChar c).isSome := h c (List.mem_cons_self c cs)
    obtain ⟨d, hd⟩ := Option.isSome_iff_exists.mp hc
    show (∃ v, (match decodeChar c with
        | some e => b58DecodeNum cs (acc * 58 + e)
        | none => none) = some v)
    rw [hd]
    exact ih (acc * 58 + d) (fun y hy => h y (List.mem_cons_of_mem c hy))

/-! ### Locating the separator -/

theorem findIdx_no_sep (s : List Nat) (hs : ∀ c ∈ s, c ≠ 45) :
    s.findIdx? (fun a => a == sepByte) = none := by
  rw [List.findIdx?_eq_none_iff]
  intro x hx
  simpa [sepByte] using hs x hx

theorem findIdx_sep_append (p r : List Nat) (hp : ∀ c ∈ p, c ≠ 45) :
    (p ++ 45 :: r).findIdx? (fun a => a == sepByte) = some p.length := by
  rw [List.findIdx?_append, findIdx_no_sep p hp]
  simp [sepByte]

/-! ### The base58 encode/decode round trip -/


theorem beVal_drop_countLeading (bs : List Nat) :
    beVal 256 bs = beVal 256 (bs.drop (countLeading 0 bs)) := by
  obtain ⟨hdecomp, -⟩ := countLeading_decomp 0 bs
  conv_lhs => rw [hdecomp]
  exact beVal_replicate_zero_append 256 _ _

theorem b58Encode_decomp (bs : List Nat) :
    b58Encode bs = List.replicate (countLeading 0 bs) 49 ++
      (beDigits 58 (beVal 256 (bs.drop (countLeading 0 bs)))).map encodeChar := by
  unfold b58Encode
  rw [beVal_drop_countLeading]

theorem b58_roundtrip (bs : List Nat) (hne : bs ≠ []) (hlen : bs.length ≤ 32)
    (hlt : ∀ x ∈ bs, x < 256) : b58Decode (b58Encode bs) = some bs := by
  obtain ⟨hdecomp, hhead⟩ := countLeading_decomp 0 bs
  have hrlen : (bs.drop (countLeading 0 bs)).length ≤ 32 := by
    rw [List.length_drop]; omega
  have hrlt : ∀ x ∈ bs.drop (countLeading 0 bs), x < 256 :=
    fun x hx => hlt x (List.mem_of_mem_drop hx)
  have hv64 : beVal 256 (bs.drop (countLeading 0 bs)) < 58 ^ 64 := by
    have h1 := beVal_lt 256 _ hrlt
    have h2 : (256 : Nat) ^ (bs.drop (countLeading 0 bs)).length ≤ 256 ^ 32 :=
      Nat.pow_le_pow_right (by norm_num) hrlen
    have h3 : (256 : Nat) ^ 32 ≤ 58 ^ 64 := by norm_num
    omega
  by_cases h0 : beVal 256 (bs.drop (countLeading 0 bs)) = 0
  · -- a nonempty remainder would start with a nonzero byte, so there is none
    have hrest_nil : bs.drop (countLeading 0 bs) = [] := by
      cases hr : bs.drop (countLeading 0 bs) with
      | nil => rfl
      | cons x t =>
        exfalso
        have hx : x ≠ 0 := hhead x t hr
        rw [hr, beVal_cons] at h0
        have hpos : 0 < 256 ^ t.length := pow_pos (by norm_num) _
        have hx1 : 1 ≤ x := Nat.pos_of_ne_zero hx
        nlinarith
    have hbs : bs = List.replicate (countLeading 0 bs) 0 := by
      conv_lhs => rw [hdecomp]
      rw [hrest_nil, List.append_nil]
    have hz1 : 1 ≤ countLeading 0 bs := by
      rcases Nat.eq_zero_or_pos (countLeading 0 bs) with h | h
      · exfalso; apply hne; rw [hbs, h]; rfl
      · exact h
    rw [b58Encode_decomp, h0, beDigits_zero]
    simp only [List.map_nil, List.append_nil]
    unfold b58Decode
    rw [if_neg (by
      simp only [List.isEmpty_iff]
      intro hemp
      have := congrArg List.length hemp
      simp at this
      omega)]
    have hnum : b58DecodeNum (List.replicate (countLeading 0 bs) 49) 0 = some 0 := by
      have h1 := b58DecodeNum_replicate_one (countLeading 0 bs) []
      simpa using h1
    rw [hnum]
    have hcl : countLeading 49 (List.replicate (countLeading 0 bs) 49) = countLeading 0 bs := by
      have h2 := countLeading_replicate_append 49 (countLeading 0 bs) []
      simpa using h2
    show some (List.replicate (countLeading 49 (List.replicate (countLeading 0 bs) 49)) 0 ++
      beDigits 256 0) = some bs
    rw [hcl, beDigits_zero, List.append_nil, ← hbs]
  · -- nonzero value: the digit block is nonempty and starts with a char other than '1'
    obtain ⟨d0, ds, hds⟩ :
        ∃ d0 ds, beDigits 58 (beVal 256 (bs.drop (countLeading 0 bs))) = d0 :: ds := by
      cases hd : beDigits 58 (beVal 256 (bs.drop (countLeading 0 bs))) with
      | nil =>
        exfalso
        have hvb := beVal_beDigits 58 _ (by norm_num) hv64
        rw [hd] at hvb
        exact h0 (by rw [← hvb]; rfl)
      | cons d0 ds => exact ⟨d0, ds, rfl⟩
    have hd0ne : d0 ≠ 0 := beDigits_head_ne_zero 58 _ (by norm_num) h0 hv64 d0 ds hds
    have hd0lt : d0 < 58 :=
      beDigits_mem_lt 58 _ (by norm_num) hv64 d0 (by rw [hds]; exact List.mem_cons_self _ _)
    have hdlt : ∀ d ∈ beDigits 58 (beVal 256 (bs.drop (countLeading 0 bs))), d < 58 :=
      beDigits_mem_lt 58 _ (by norm_num) hv64
    rw [b58Encode_decomp]
    unfold b58Decode
    rw [if_neg (by simp [List.isEmpty_iff, hds])]
    have hnum : b58DecodeNum (List.replicate (countLeading 0 bs) 49 ++
        (beDigits 58 (beVal 256 (bs.drop (countLeading 0 bs)))).map encodeChar) 0 =
        some (beVal 256 (bs.drop (countLeading 0 bs))) := by
      rw [b58DecodeNum_replicate_one, b58DecodeNum_map_encodeChar _ 0 hdlt]
      exact congrArg some (beVal_beDigits 58 _ (by norm_num) hv64)
    rw [hnum]
    have hcl : countLeading 49 (List.replicate (countLeading 0 bs) 49 ++
        (beDigits 58 (beVal 256 (bs.drop (countLeading 0 bs)))).map encodeChar) =
        countLeading 0 bs := by
      rw [countLeading_replicate_append, hds, List.map_cons,
        countLeading_cons_ne 49 (encodeChar d0) _ (encodeChar_ne_fortynine d0 hd0lt hd0ne)]
      omega
    show some (List.replicate (countLeading 49 (List.replicate (countLeading 0 bs) 49 ++
      (beDigits 58 (beVal 256 (bs.drop (countLeading 0 bs)))).map encodeChar)) 0 ++
      beDigits 256 (beVal 256 (bs.drop (countLeading 0 bs)))) = some bs
    have hrest : beDigits 256 (beVal 256 (bs.drop (countLeading 0 bs))) =
        bs.drop (countLeading 0 bs) := by
      refine beDigits_beVal 256 _ (by norm_num) (by omega) hrlt ?hh
      intro x t hxt hx0
      exact hhead x t hxt (by rw [hx0])
    rw [hcl, hrest, ← hdecomp]

/-! ### Lexicographic comparison -/

theorem lexLt_append_same (p : List Nat) : ∀ a b : List Nat, lexLt (p ++ a) (p ++ b) = lexLt a b := by
  induction p with
  | nil => intro a b; rfl
  | cons x xs ih =>
    intro a b
    show lexLt (x :: (xs ++ a)) (x :: (xs ++ b)) = _
    simp only [lexLt, lt_self_iff_false, if_false]
    exact ih a b

theorem lexLt_of_beVal_lt (l1 : List Nat) :
    ∀ l2 : List Nat, l1.length = l2.length → (∀ x ∈ l1, x < 58) → (∀ x ∈ l2, x < 58) →
      beVal 58 l1 < beVal 58 l2 → lexLt (l1.map encodeChar) (l2.map encodeChar) = true := by
  induction l1 with
  | nil =>
    intro l2 hlen _ _ hv
    have hl2 : l2 = [] := by
      cases l2 with
      | nil => rfl
      | cons y ys => simp at hlen
    subst hl2
    simp [beVal] at hv
  | cons a as ih =>
    intro l2 hlen h1 h2 hv
    cases l2 with
    | nil => simp at hlen
    | cons b bs =>
      have hlen' : as.length = bs.length := by simpa using hlen
      have ha : a < 58 := h1 a (List.mem_cons_self _ _)
      have hb : b < 58 := h2 b (List.mem_cons_self _ _)
      rw [beVal_cons, beVal_cons, hlen'] at hv
      rcases Nat.lt_trichotomy a b with hab | hab | hab
      · have hch : encodeChar a < encodeChar b := encodeChar_lt_of_lt a ha b hb hab
        show lexLt (encodeChar a :: as.map encodeChar) (encodeChar b :: bs.map encodeChar) = true
        simp [lexLt, hch]
      · subst hab
        have hvv : beVal 58 as < beVal 58 bs := Nat.lt_of_add_lt_add_left hv
        show lexLt (encodeChar a :: as.map encodeChar) (encodeChar a :: bs.map encodeChar) = true
        simp only [lexLt, lt_self_iff_false, if_false]
        exact ih bs hlen' (fun x hx => h1 x (List.mem_cons_of_mem _ hx))
          (fun x hx => h2 x (List.mem_cons_of_mem _ hx)) hvv
      · exfalso
        have hw : beVal 58 bs < 58 ^ bs.length :=
          beVal_lt 58 bs (fun x hx => h2 x (List.mem_cons_of_mem _ hx))
        have hX : b * 58 ^ bs.length + beVal 58 bs < (b + 1) * 58 ^ bs.length := by
          rw [Nat.succ_mul]
          exact Nat.add_lt_add_left hw _
        have hY : (b + 1) * 58 ^ bs.length ≤ a * 58 ^ bs.length :=
          Nat.mul_le_mul_right _ (by omega)
        exact absurd (lt_of_lt_of_le (lt_trans hv hX) (le_trans hY (Nat.le_add_right _ _)))
          (lt_irrefl _)

/-! ### Timestamp arithmetic -/

theorem tsField_eq (t : Nat) : tsField t = 256 * (t % 2 ^ 56) := by
  have hm : t % 2 ^ 56 < 2 ^ 56 := Nat.mod_lt _ (by norm_num)
  have hshift : (t % 2 ^ 56) <<< 8 = 256 * (t % 2 ^ 56) := by
    rw [Nat.shiftLeft_eq]; ring
  unfold tsField
  have h1 : t % 2 ^ 64 * 256 % 2 ^ 64 = (t % 2 ^ 56) <<< 8 := by
    rw [Nat.mul_comm (t % 2 ^ 64) 256,
      show (2 : Nat) ^ 64 = 256 * 2 ^ 56 from by norm_num,
      Nat.mul_mod_mul_left,
      Nat.mod_mod_of_dvd t (by norm_num : (2 : Nat) ^ 56 ∣ 256 * 2 ^ 56),
      hshift]
  rw [h1, show (0xFFFFFFFFFFFFFF00 : Nat) = (2 ^ 56 - 1) <<< 8 from by decide, ← hshift]
  apply Nat.eq_of_testBit_eq
  intro i
  simp only [Nat.testBit_and, Nat.testBit_shiftLeft, Nat.testBit_two_pow_sub_one]
  by_cases h8 : 8 ≤ i
  · by_cases h56 : i - 8 < 56
    · simp [h8, h56]
    · have hfalse : (t % 2 ^ 56).testBit (i - 8) = false :=
        Nat.testBit_lt_two_pow
          (lt_of_lt_of_le hm (Nat.pow_le_pow_right (by norm_num) (by omega)))
      simp [h8, h56]
      simpa using hfalse
  · simp [h8]

theorem timeBytes_eq (t : Nat) (h : t < 2 ^ 56) :
    timeBytes t = [t / 2 ^ 48 % 256, t / 2 ^ 40 % 256, t / 2 ^ 32 % 256, t / 2 ^ 24 % 256,
      t / 2 ^ 16 % 256, t / 2 ^ 8 % 256, t % 256] := by
  unfold timeBytes
  rw [tsField_eq, Nat.mod_eq_of_lt h]
  simp only [Nat.shiftRight_eq_div_pow, List.cons.injEq, eq_self_iff_true, and_true]
  omega

theorem beVal_timeBytes (t : Nat) (h : t < 2 ^ 56) : beVal 256 (timeBytes t) = t := by
  rw [timeBytes_eq t h]
  simp only [beVal, List.foldl]
  omega

theorem timeBytes_head_ne_zero (t : Nat) (h1 : 2 ^ 48 ≤ t) (h2 : t < 2 ^ 56) :
    ∀ x r, timeBytes t = x :: r → x ≠ 0 := by
  intro x r hx
  rw [timeBytes_eq t h2] at hx
  cases hx
  intro h0
  omega

theorem timeBytes_lt (t : Nat) : ∀ x ∈ timeBytes t, x < 256 := by
  intro x hx
  unfold timeBytes at hx
  simp only [List.mem_cons, List.not_mem_nil, or_false] at hx
  rcases hx with h | h | h | h | h | h | h <;> (subst h; exact Nat.mod_lt _ (by norm_num))

theorem timeBytes_length (t : Nat) : (timeBytes t).length = 7 := rfl

/-! ### The random tail -/

theorem rndTail_length (rnd : List Nat) : (rndTail rnd).length = 12 := by
  unfold rndTail randomBytesLen
  simp only [List.length_append, List.length_take, List.length_replicate]
  omega

theorem rndTail_lt (rnd : List Nat) (h : ∀ x ∈ rnd, x < 256) : ∀ x ∈ rndTail rnd, x < 256 := by
  intro x hx
  unfold rndTail at hx
  rcases List.mem_append.mp hx with h1 | h1
  · exact h x (List.mem_of_mem_take h1)
  · rw [List.eq_of_mem_replicate h1]; norm_num

theorem rndTail_of_full (rnd : List Nat) (h : rnd.length = 12) : rndTail rnd = rnd := by
  unfold rndTail randomBytesLen
  rw [h]
  simp [List.take_of_length_le (le_of_eq h)]

theorem beVal_rndTail_lt (rnd : List Nat) (h : ∀ x ∈ rnd, x < 256) :
    beVal 256 (rndTail rnd) < 256 ^ 12 := by
  have h1 := beVal_lt 256 (rndTail rnd) (rndTail_lt rnd h)
  rw [rndTail_length] at h1
  exact h1

/-! ### Encoded-length facts -/

theorem beVal_lt_58_64 (l : List Nat) (hlen : l.length ≤ 32) (hlt : ∀ x ∈ l, x < 256) :
    beVal 256 l < 58 ^ 64 := by
  have h1 := beVal_lt 256 l hlt
  have h2 : (256 : Nat) ^ l.length ≤ 256 ^ 32 := Nat.pow_le_pow_right (by norm_num) hlen
  have h3 : (256 : Nat) ^ 32 ≤ 58 ^ 64 := by norm_num
  omega

theorem b58Encode_length_ge25 (bs : List Nat) (hlen : bs.length ≤ 32)
    (hlt : ∀ x ∈ bs, x < 256) (hval : 58 ^ 24 ≤ beVal 256 bs) :
    25 ≤ (b58Encode bs).length := by
  rw [b58Encode_decomp]
  simp only [List.length_append, List.length_replicate, List.length_map]
  have hveq := beVal_drop_countLeading bs
  have hrlen : (bs.drop (countLeading 0 bs)).length ≤ 32 := by
    rw [List.length_drop]; omega
  have hrlt : ∀ x ∈ bs.drop (countLeading 0 bs), x < 256 :=
    fun x hx => hlt x (List.mem_of_mem_drop hx)
  have hv0 : beVal 256 (bs.drop (countLeading 0 bs)) ≠ 0 := by
    intro h0
    rw [← hveq] at h0
    rw [h0] at hval
    norm_num at hval
  have hdl := beDigits_len 58 _ (by norm_num) hv0 (beVal_lt_58_64 _ hrlen hrlt)
  have hlog : 24 ≤ Nat.log 58 (beVal 256 (bs.drop (countLeading 0 bs))) := by
    refine (Nat.pow_le_iff_le_log (by norm_num) hv0).mp ?hle
    rw [← hveq]
    exact hval
  omega

theorem b58Encode_cons_ne (x : Nat) (t : List Nat) (hx : x ≠ 0) :
    b58Encode (x :: t) = (beDigits 58 (beVal 256 (x :: t))).map encodeChar := by
  unfold b58Encode
  rw [countLeading_cons_ne 0 x t hx]
  simp

theorem b58Encode_len25 (bs : List Nat) (hlb : bs.length = 19) (hlt : ∀ x ∈ bs, x < 256)
    (h1 : 2 ^ 144 ≤ beVal 256 bs) (h2 : beVal 256 bs < 58 ^ 25) :
    (b58Encode bs).length = 25 := by
  cases bs with
  | nil => simp at hlb
  | cons x t =>
    have htl : t.length = 18 := by simpa using hlb
    have hx : x ≠ 0 := by
      intro h0
      subst h0
      rw [beVal_cons, htl] at h1
      have ht : beVal 256 t < 256 ^ t.length :=
        beVal_lt 256 t (fun y hy => hlt y (List.mem_cons_of_mem _ hy))
      rw [htl] at ht
      norm_num at h1 ht
      omega
    rw [b58Encode_cons_ne x t hx, List.length_map]
    have hv0 : beVal 256 (x :: t) ≠ 0 := by
      intro h0
      rw [h0] at h1
      norm_num at h1
    have hv64 : beVal 256 (x :: t) < 58 ^ 64 :=
      lt_of_lt_of_le h2 (Nat.pow_le_pow_right (by norm_num) (by norm_num))
    rw [beDigits_len 58 _ (by norm_num) hv0 hv64,
      Nat.log_eq_of_pow_le_of_lt_pow (le_trans (by norm_num : (58 : Nat) ^ 24 ≤ 2 ^ 144) h1) h2]

theorem b58Encode_no_sep (bs : List Nat) (hlen : bs.length ≤ 32) (hlt : ∀ x ∈ bs, x < 256) :
    ∀ c ∈ b58Encode bs, c ≠ 45 := by
  intro c hc
  unfold b58Encode at hc
  rcases List.mem_append.mp hc with h | h
  · rw [List.eq_of_mem_replicate h]; norm_num
  · obtain ⟨d, hd, rfl⟩ := List.mem_map.mp h
    have hd58 : d < 58 := beDigits_mem_lt 58 _ (by norm_num) (beVal_lt_58_64 bs hlen hlt) d hd
    exact encodeChar_ne_sep d hd58

theorem b58Encode_length_bounds (bs : List Nat) (hlb : bs.length = 19)
    (hlt : ∀ x ∈ bs, x < 256) :
    19 ≤ (b58Encode bs).length ∧ (b58Encode bs).length ≤ 26 := by
  obtain ⟨hdecomp, hhead⟩ := countLeading_decomp 0 bs
  have hveq := beVal_drop_countLeading bs
  have hzle : countLeading 0 bs ≤ 19 := by
    have h := countLeading_le_length 0 bs; omega
  have hrlen : (bs.drop (countLeading 0 bs)).length = 19 - countLeading 0 bs := by
    rw [List.length_drop, hlb]
  have hrlt : ∀ x ∈ bs.drop (countLeading 0 bs), x < 256 :=
    fun x hx => hlt x (List.mem_of_mem_drop hx)
  rw [b58Encode_decomp]
  simp only [List.length_append, List.length_replicate, List.length_map]
  cases hr : bs.drop (countLeading 0 bs) with
  | nil =>
    have hz19 : countLeading 0 bs = 19 := by
      rw [hr] at hrlen
      simp at hrlen
      omega
    rw [show beVal 256 ([] : List Nat) = 0 from rfl, beDigits_zero]
    simp [hz19]
  | cons x t =>
    have hx : x ≠ 0 := hhead x t hr
    have hrl : (x :: t).length = 19 - countLeading 0 bs := by rw [← hr, hrlen]
    have htlen : t.length = 18 - countLeading 0 bs := by
      simp only [List.length_cons] at hrl
      omega
    have hzlt : countLeading 0 bs ≤ 18 := by
      simp only [List.length_cons] at hrl
      omega
    have hxlt : ∀ y ∈ x :: t, y < 256 := by rw [← hr]; exact hrlt
    have hv_lo : 256 ^ t.length ≤ beVal 256 (x :: t) := by
      rw [beVal_cons]
      have hx1 : 1 ≤ x := Nat.pos_of_ne_zero hx
      have := Nat.mul_le_mul_right (256 ^ t.length) hx1
      omega
    have hv_hi : beVal 256 (x :: t) < 256 ^ (t.length + 1) := by
      have h := beVal_lt 256 (x :: t) hxlt
      simpa using h
    have hv0 : beVal 256 (x :: t) ≠ 0 := by
      have hp : 0 < (256 : Nat) ^ t.length := pow_pos (by norm_num) _
      omega
    have hv64 : beVal 256 (x :: t) < 58 ^ 64 := by
      refine beVal_lt_58_64 (x :: t) ?hl hxlt
      simp only [List.length_cons]
      omega
    rw [beDigits_len 58 _ (by norm_num) hv0 hv64]
    have hlog_lo : 18 - countLeading 0 bs ≤ Nat.log 58 (beVal 256 (x :: t)) := by
      refine (Nat.pow_le_iff_le_log (by norm_num) hv0).mp ?hlo
      calc (58 : Nat) ^ (18 - countLeading 0 bs)
          ≤ 256 ^ (18 - countLeading 0 bs) := Nat.pow_le_pow_left (by norm_num) _
        _ = 256 ^ t.length := by rw [htlen]
        _ ≤ beVal 256 (x :: t) := hv_lo
    have hlog_hi : Nat.log 58 (beVal 256 (x :: t)) < 26 - countLeading 0 bs := by
      refine (Nat.lt_pow_iff_log_lt (by norm_num) hv0).mp ?hhi
      have hkey : ∀ z : Nat, z ≤ 18 → (256 : Nat) ^ (19 - z) ≤ 58 ^ (26 - z) := by decide
      calc beVal 256 (x :: t) < 256 ^ (t.length + 1) := hv_hi
        _ = 256 ^ (19 - countLeading 0 bs) := by rw [htlen]; congr 1; omega
        _ ≤ 58 ^ (26 - countLeading 0 bs) := hkey _ hzlt
    omega

/-! ### Prefix validation and parse paths -/

theorem ne_of_contains_false {l : List Nat} {a : Nat} (h : l.contains a = false) :
    ∀ c ∈ l, c ≠ a := by
  intro c hc hca
  subst hca
  rw [List.contains_eq_any_beq, List.any_eq_false] at h
  exact h c hc (by simp)

theorem validatePfx_true_elim (p : List Nat) (h : validatePfx p true = true) :
    p.contains 45 = false ∧ p.contains 32 = false ∧ (p.length = 0 ∨ p.length = 3) := by
  unfold validatePfx at h
  simp only [sepByte, pfxAllowedLen, Bool.and_eq_true, Bool.not_eq_true',
    Bool.or_eq_true, beq_iff_eq] at h
  tauto

theorem validatePfx_sep_append (p : List Nat) :
    validatePfx (p ++ [sepByte]) false = validatePfx p true := by
  unfold validatePfx trimSuffixSep
  simp [List.getLast?_concat, List.dropLast_concat]

theorem validatePfx_nil_false : validatePfx [] false = true := by decide

theorem findIdx_sep_append' (p r : List Nat) (hp : ∀ c ∈ p, c ≠ 45) :
    ((p ++ [sepByte]) ++ r).findIdx? (fun a => a == sepByte) = some p.length := by
  rw [List.append_assoc, List.singleton_append]
  exact findIdx_sep_append p r hp

theorem idString_unprefixed (payload : List Nat) (h : payload.length = 19) :
    idString payload = some (b58Encode payload) := by
  unfold idString
  rw [if_neg (by simp [h, byteLength, timeBytesLen, randomBytesLen])]

theorem idString_prefixed (pfx payload : List Nat) (hp : ∀ c ∈ pfx, c ≠ 45)
    (hpl : pfx.length = 3) (h : payload.length = 19) :
    idString ((pfx ++ [sepByte]) ++ payload) =
      some ((pfx ++ [sepByte]) ++ b58Encode payload) := by
  unfold idString
  rw [if_pos (by
    simp only [List.length_append, List.length_cons, List.length_nil, hpl, h,
      byteLength, timeBytesLen, randomBytesLen]
    omega)]
  rw [findIdx_sep_append' pfx payload hp, hpl]
  show some ((((pfx ++ [sepByte]) ++ payload).take (3 + 1)) ++
    b58Encode (((pfx ++ [sepByte]) ++ payload).drop (3 + 1))) = _
  rw [List.take_left' (by simp [hpl]), List.drop_left' (by simp [hpl])]

theorem Parse_prefixed (pfx enc : List Nat) (hp : ∀ c ∈ pfx, c ≠ 45) (hpl : pfx.length = 3) :
    Parse ((pfx ++ [sepByte]) ++ enc) = parseInternal (pfx ++ [sepByte]) enc := by
  unfold Parse
  rw [findIdx_sep_append' pfx enc hp, hpl]
  show parseInternal (((pfx ++ [sepByte]) ++ enc).take (3 + 1))
    (((pfx ++ [sepByte]) ++ enc).drop (3 + 1)) = _
  rw [List.take_left' (by simp [hpl]), List.drop_left' (by simp [hpl])]

theorem Parse_unprefixed (enc : List Nat) (hs : ∀ c ∈ enc, c ≠ 45) (hlen : 25 ≤ enc.length) :
    Parse enc = parseInternal [] enc := by
  unfold Parse
  rw [findIdx_no_sep enc hs]
  show (if enc.length ≥ stringEncodedLen then parseInternal [] enc else .err .stringSize) = _
  rw [if_pos (by simpa [stringEncodedLen] using hlen)]

theorem parseInternal_round (pfxFull payload : List Nat)
    (hv : validatePfx pfxFull false = true)
    (hpl : payload.length = 19) (hplt : ∀ x ∈ payload, x < 256)
    (hval : 58 ^ 24 ≤ beVal 256 payload) :
    parseInternal pfxFull (b58Encode payload) = .ok (pfxFull ++ payload) := by
  have hlen : 25 ≤ (b58Encode payload).length :=
    b58Encode_length_ge25 payload (by omega) hplt hval
  unfold parseInternal
  rw [if_neg (by simp only [stringEncodedLen]; omega)]
  rw [if_neg (by simp [hv])]
  rw [b58_roundtrip payload (by intro hnil; rw [hnil] at hpl; simp at hpl) (by omega) hplt]
  show FromBytes (pfxFull ++ payload) = _
  unfold FromBytes
  rw [if_neg (by
    simp only [List.length_append, hpl, byteLength, timeBytesLen, randomBytesLen]
    omega)]

/-! ### Structure of freshly generated identifiers -/

theorem newID_some (pfx : List Nat) (ticks : Nat) (rnd : List Nat)
    (hv : validatePfx pfx true = true) :
    newID pfx ticks rnd =
      some ((if pfx.length > 0 then pfx ++ [sepByte] else []) ++
        timeBytes ticks ++ rndTail rnd) := by
  unfold newID
  rw [if_pos hv]

theorem payload_length (ticks : Nat) (rnd : List Nat) :
    (timeBytes ticks ++ rndTail rnd).length = 19 := by
  rw [List.length_append, timeBytes_length, rndTail_length]

theorem payload_lt (ticks : Nat) (rnd : List Nat) (h : ∀ x ∈ rnd, x < 256) :
    ∀ x ∈ timeBytes ticks ++ rndTail rnd, x < 256 := by
  intro x hx
  rcases List.mem_append.mp hx with h1 | h1
  · exact timeBytes_lt ticks x h1
  · exact rndTail_lt rnd h x h1

theorem payload_val (ticks : Nat) (h : ticks < 2 ^ 56) (rnd : List Nat) :
    beVal 256 (timeBytes ticks ++ rndTail rnd) =
      ticks * 256 ^ 12 + beVal 256 (rndTail rnd) := by
  rw [beVal_append, rndTail_length, beVal_timeBytes ticks h]

theorem generate_parse_round (pfx : List Nat) (ticks : Nat) (rnd : List Nat) (id s : List Nat)
    (hv : validatePfx pfx true = true)
    (hrlt : ∀ x ∈ rnd, x < 256)
    (ht56 : ticks < 2 ^ 56)
    (hval : 58 ^ 24 ≤ ticks * 256 ^ 12)
    (hid : newID pfx ticks rnd = some id)
    (hs : idString id = some s) :
    Parse s = .ok id := by
  obtain ⟨hc45, hc32, hlen03⟩ := validatePfx_true_elim pfx hv
  have hp45 : ∀ c ∈ pfx, c ≠ 45 := ne_of_contains_false hc45
  rw [newID_some pfx ticks rnd hv] at hid
  have hplen : (timeBytes ticks ++ rndTail rnd).length = 19 := payload_length ticks rnd
  have hplt : ∀ x ∈ timeBytes ticks ++ rndTail rnd, x < 256 := payload_lt ticks rnd hrlt
  have hvval : 58 ^ 24 ≤ beVal 256 (timeBytes ticks ++ rndTail rnd) := by
    rw [payload_val ticks ht56 rnd]
    exact le_trans hval (Nat.le_add_right _ _)
  rcases hlen03 with h0 | h3
  · have hpfx_nil : pfx = [] := List.eq_nil_of_length_eq_zero h0
    subst hpfx_nil
    have hid' : id = timeBytes ticks ++ rndTail rnd := by
      simp only [List.length_nil, gt_iff_lt, lt_irrefl, if_false, List.nil_append,
        Option.some.injEq] at hid
      exact hid.symm
    subst hid'
    rw [idString_unprefixed _ hplen] at hs
    have hs' : s = b58Encode (timeBytes ticks ++ rndTail rnd) := by
      simpa [eq_comm] using hs
    subst hs'
    rw [Parse_unprefixed _ (b58Encode_no_sep _ (by omega) hplt)
      (b58Encode_length_ge25 _ (by omega) hplt hvval)]
    rw [parseInternal_round [] _ validatePfx_nil_false hplen hplt hvval]
    rw [List.nil_append]
  · have hid' : id = (pfx ++ [sepByte]) ++ (timeBytes ticks ++ rndTail rnd) := by
      rw [if_pos (by omega)] at hid
      rw [← List.append_assoc]
      simpa [eq_comm] using hid
    subst hid'
    rw [idString_prefixed pfx _ hp45 h3 hplen] at hs
    have hs' : s = (pfx ++ [sepByte]) ++ b58Encode (timeBytes ticks ++ rndTail rnd) := by
      simpa [eq_comm] using hs
    subst hs'
    rw [Parse_prefixed pfx _ hp45 h3]
    rw [parseInternal_round (pfx ++ [sepByte]) _
      (by rw [validatePfx_sep_append]; exact hv) hplen hplt hvval]

/-! ### Additional helper lemmas for the claims -/

theorem b58Encode_digits_form (bs : List Nat) (hlb : bs.length = 19) (hlt : ∀ x ∈ bs, x < 256)
    (h1 : 2 ^ 144 ≤ beVal 256 bs) :
    b58Encode bs = (beDigits 58 (beVal 256 bs)).map encodeChar := by
  cases bs with
  | nil => simp at hlb
  | cons x t =>
    have htl : t.length = 18 := by simpa using hlb
    have hx : x ≠ 0 := by
      intro h0
      subst h0
      rw [beVal_cons, htl] at h1
      have ht : beVal 256 t < 256 ^ t.length :=
        beVal_lt 256 t (fun y hy => hlt y (List.mem_cons_of_mem _ hy))
      rw [htl] at ht
      norm_num at h1 ht
      omega
    exact b58Encode_cons_ne x t hx

theorem beDigits_len25 (v : Nat) (h1 : 2 ^ 144 ≤ v) (h2 : v < 58 ^ 25) :
    (beDigits 58 v).length = 25 := by
  have hv0 : v ≠ 0 := by
    intro h0
    rw [h0] at h1
    norm_num at h1
  have hv64 : v < 58 ^ 64 :=
    lt_of_lt_of_le h2 (Nat.pow_le_pow_right (by norm_num) (by norm_num))
  rw [beDigits_len 58 v (by norm_num) hv0 hv64,
    Nat.log_eq_of_pow_le_of_lt_pow (le_trans (by norm_num : (58 : Nat) ^ 24 ≤ 2 ^ 144) h1) h2]

theorem parseInternal_stringSize (p text : List Nat) (h : text.length < 25) :
    parseInternal p text = PResult.err ParseErr.stringSize := by
  unfold parseInternal
  rw [if_pos (by simp only [stringEncodedLen]; omega)]

theorem parseInternal_ne_stringSize (p text : List Nat) (h : 25 ≤ text.length) :
    parseInternal p text ≠ PResult.err ParseErr.stringSize := by
  unfold parseInternal
  rw [if_neg (by simp only [stringEncodedLen]; omega)]
  by_cases hv : validatePfx p false = true
  · rw [if_neg (by simp [hv])]
    cases hdec : b58Decode text with
    | none => simp
    | some bs =>
      show FromBytes (p ++ bs) ≠ PResult.err ParseErr.stringSize
      unfold FromBytes
      split <;> simp
  · rw [if_pos (by simp [hv])]
    simp

/-! ### Claim theorems -/

/-- C7: `FromBytes` fails with `BytesSizeMismatch` exactly on inputs shorter
than 19 bytes; on longer inputs it succeeds and returns all supplied bytes
unchanged (the Go code copies them into a fresh buffer), retaining every byte
beyond index 18. -/
theorem c7_frombytes (raw : List Nat) :
    (FromBytes raw = PResult.err ParseErr.bytesSize ↔ raw.length < 19) ∧
    (19 ≤ raw.length → FromBytes raw = PResult.ok raw) := by
  have hb : byteLength = 19 := rfl
  constructor
  · constructor
    · intro h
      by_contra hge
      unfold FromBytes at h
      rw [if_neg (by rw [hb]; omega)] at h
      exact PResult.noConfusion h
    · intro h
      unfold FromBytes
      rw [if_pos (by rw [hb]; omega)]
  · intro h
    unfold FromBytes
    rw [if_neg (by rw [hb]; omega)]

/-- Witness for C7 at a concrete 23-byte input. -/
theorem c7_frombytes_witness :
    FromBytes (List.replicate 23 7) = PResult.ok (List.replicate 23 7) :=
  (c7_frombytes (List.replicate 23 7)).2 (by decide)

/-- C5 (amended): `Scan` extracts the bytes of every supported input shape
and dispatches `scan` purely on byte length: 19/22 go to the binary path
(`FromBytes`, which always succeeds at those lengths), 25/28 go to the
textual path (`Parse`), length 0 — including a nil input — is accepted as a
no-op that leaves the receiver unchanged, and every other length fails with
the `BytesSizeMismatch` error. -/
theorem c5_scan_dispatch (b : List Nat) :
    (Scan ScanSrc.nil = scan [] ∧ Scan (ScanSrc.bytes b) = scan b ∧
      Scan (ScanSrc.buffer b) = scan b ∧ Scan (ScanSrc.bufferPtr b) = scan b ∧
      Scan (ScanSrc.str b) = scan b) ∧
    scan [] = ScanOut.noChange ∧
    (b.length = 19 ∨ b.length = 22 → scan b = ScanOut.set b) ∧
    (b.length = 25 ∨ b.length = 28 →
      scan b = match Parse b with
        | PResult.ok id => ScanOut.set id
        | PResult.err e => ScanOut.err e) ∧
    (b.length ≠ 0 → b.length ≠ 19 → b.length ≠ 22 → b.length ≠ 25 → b.length ≠ 28 →
      scan b = ScanOut.err ParseErr.bytesSize) := by
  refine ⟨⟨rfl, rfl, rfl, rfl, rfl⟩, rfl, ?h1, ?h2, ?h3⟩
  · rintro (h | h) <;>
      simp [scan, FromBytes, h, byteLength, timeBytesLen, randomBytesLen, pfxAllowedLen,
        stringEncodedLen]
  · rintro (h | h) <;>
      simp [scan, h, byteLength, timeBytesLen, randomBytesLen, pfxAllowedLen, stringEncodedLen]
  · intro h0 h19 h22 h25 h28
    unfold scan
    rw [if_neg (by simpa using h0),
      if_neg (by
        simp only [byteLength, timeBytesLen, randomBytesLen, pfxAllowedLen, Bool.or_eq_true,
          beq_iff_eq]
        omega),
      if_neg (by
        simp only [stringEncodedLen, pfxAllowedLen, Bool.or_eq_true, beq_iff_eq]
        omega)]

/-- Witness for C5 at a concrete 23-byte input. -/
theorem c5_scan_dispatch_witness :
    scan (List.replicate 23 0) = ScanOut.err ParseErr.bytesSize :=
  (c5_scan_dispatch (List.replicate 23 0)).2.2.2.2 (by decide) (by decide) (by decide)
    (by decide) (by decide)

/-- Counterexample for C5 as frozen: length 0 is none of the four buckets,
yet `Scan` of an empty byte slice is a successful no-op, not an error. -/
theorem c5_counterexample :
    Scan (ScanSrc.bytes []) = ScanOut.noChange ∧
    (Scan (ScanSrc.bytes [])).isErr = false := by decide

theorem timeBytes_mod (ticks : Nat) : timeBytes ticks = timeBytes (ticks % 2 ^ 56) := by
  unfold timeBytes
  rw [tsField_eq, tsField_eq, Nat.mod_mod_of_dvd ticks (dvd_refl (2 ^ 56))]

theorem beVal_timeBytes_mod (ticks : Nat) :
    beVal 256 (timeBytes ticks) = ticks % 2 ^ 56 := by
  rw [timeBytes_mod, beVal_timeBytes _ (Nat.mod_lt _ (by norm_num))]

/-- C9: an identifier generated with a non-empty valid tag stores 23 bytes
(3 tag bytes, 1 separator, 19 payload bytes); `Bytes` and `Value` expose
those 23 bytes unchanged, and `scan` rejects any 23-byte input with the
`BytesSizeMismatch` error while leaving the receiver untouched — so the
binary `Value`-then-`Scan` round trip never succeeds for a prefixed
identifier. -/
theorem c9_prefixed_value_scan (pfx : List Nat) (ticks : Nat) (rnd : List Nat)
    (hv : validatePfx pfx true = true) (hne : pfx ≠ []) :
    ∃ id, newID pfx ticks rnd = some id ∧ id.length = 23 ∧ Bytes id = id ∧ Value id = id ∧
      scan (Value id) = ScanOut.err ParseErr.bytesSize := by
  obtain ⟨-, -, hlen03⟩ := validatePfx_true_elim pfx hv
  have h3 : pfx.length = 3 := by
    rcases hlen03 with h0 | h3
    · exact absurd (List.eq_nil_of_length_eq_zero h0) hne
    · exact h3
  have hl : ((pfx ++ [sepByte]) ++ timeBytes ticks ++ rndTail rnd).length = 23 := by
    simp only [List.length_append, List.length_cons, List.length_nil, h3,
      timeBytes_length, rndTail_length]
  refine ⟨(pfx ++ [sepByte]) ++ timeBytes ticks ++ rndTail rnd, ?hgen, hl, rfl, rfl, ?hscan⟩
  · rw [newID_some pfx ticks rnd hv, if_pos (by omega)]
  · show scan ((pfx ++ [sepByte]) ++ timeBytes ticks ++ rndTail rnd) = _
    unfold scan
    rw [if_neg (by rw [hl]; decide),
      if_neg (by
        rw [hl]
        simp only [byteLength, timeBytesLen, randomBytesLen, pfxAllowedLen]
        decide),
      if_neg (by
        rw [hl]
        simp only [stringEncodedLen, pfxAllowedLen]
        decide)]

/-- Witness for C9 with tag `acc` at tick 0 and zero randomness. -/
theorem c9_prefixed_value_scan_witness :
    ∃ id, newID [97, 99, 99] 0 (List.replicate 12 0) = some id ∧ id.length = 23 ∧
      Bytes id = id ∧ Value id = id ∧ scan (Value id) = ScanOut.err ParseErr.bytesSize :=
  c9_prefixed_value_scan [97, 99, 99] 0 (List.replicate 12 0) (by decide) (by decide)

/-- C4: for every successfully generated identifier, with
`shifted = tsField ticks` the 7 timestamp bytes stored right after the
optional tag are exactly `(shifted >>> (56 - 8*i)) % 256` for `i = 0..6`
(so byte 6 holds bits 15..8 of `shifted`), bits 7..0 of `shifted` are zero,
and read as a big-endian integer the 7 bytes are bits 63..8 of `shifted`. -/
theorem c4_timestamp_bytes (pfx : List Nat) (ticks : Nat) (rnd : List Nat) (id : List Nat)
    (hid : newID pfx ticks rnd = some id) :
    (id.drop (if pfx.length > 0 then 4 else 0)).take 7 =
      [tsField ticks >>> 56 % 256, tsField ticks >>> 48 % 256, tsField ticks >>> 40 % 256,
       tsField ticks >>> 32 % 256, tsField ticks >>> 24 % 256, tsField ticks >>> 16 % 256,
       tsField ticks >>> 8 % 256] ∧
    tsField ticks % 256 = 0 ∧
    beVal 256 (timeBytes ticks) = tsField ticks / 256 := by
  have hbytes : tsField ticks % 256 = 0 ∧ beVal 256 (timeBytes ticks) = tsField ticks / 256 := by
    constructor
    · rw [tsField_eq]; omega
    · rw [beVal_timeBytes_mod, tsField_eq]; omega
  by_cases hv : validatePfx pfx true = true
  · rw [newID_some pfx ticks rnd hv] at hid
    have hid' : id = (if pfx.length > 0 then pfx ++ [sepByte] else []) ++
        timeBytes ticks ++ rndTail rnd := by
      simpa [eq_comm] using hid
    subst hid'
    refine ⟨?htake, hbytes⟩
    obtain ⟨-, -, hlen03⟩ := validatePfx_true_elim pfx hv
    by_cases hp : pfx.length > 0
    · have h3 : pfx.length = 3 := by omega
      rw [if_pos hp, if_pos hp, List.append_assoc (pfx ++ [sepByte])]
      rw [List.drop_left' (by simp [h3])]
      rw [List.take_left' (timeBytes_length ticks)]
      rfl
    · rw [if_neg hp, if_neg hp, List.drop_zero, List.nil_append,
        List.take_left' (timeBytes_length ticks)]
      rfl
  · unfold newID at hid
    rw [if_neg hv] at hid
    exact Option.noConfusion hid

/-- Witness for C4 at tick 5 with no tag. -/
theorem c4_timestamp_bytes_witness :
    (([0, 0, 0, 0, 0, 0, 5, 0, 0, 0, 0, 0, 0, 0, 0, 0, 0, 0, 0] : List Nat).drop
        (if ([] : List Nat).length > 0 then 4 else 0)).take 7 =
      [tsField 5 >>> 56 % 256, tsField 5 >>> 48 % 256, tsField 5 >>> 40 % 256,
       tsField 5 >>> 32 % 256, tsField 5 >>> 24 % 256, tsField 5 >>> 16 % 256,
       tsField 5 >>> 8 % 256] ∧
    tsField 5 % 256 = 0 ∧
    beVal 256 (timeBytes 5) = tsField 5 / 256 :=
  c4_timestamp_bytes [] 5 [] [0, 0, 0, 0, 0, 0, 5, 0, 0, 0, 0, 0, 0, 0, 0, 0, 0, 0, 0]
    (by decide)

/-- C10: `Parse` accepts the 26-character separator-free text obtained by
base58-encoding the 20-byte string `1 :: 0^19` and succeeds, returning those
20 bytes, none of which is the separator; `String` on that identifier then
hits the missing-separator panic branch (`none`), so the panic in `ID.String`
is reachable from the public interface through `Parse`. -/
theorem c10_parse_reaches_panic :
    (b58Encode (1 :: List.replicate 19 0)).length = 26 ∧
    (b58Encode (1 :: List.replicate 19 0)).contains 45 = false ∧
    Parse (b58Encode (1 :: List.replicate 19 0)) = PResult.ok (1 :: List.replicate 19 0) ∧
    ((1 : Nat) :: List.replicate 19 0).length = 20 ∧
    ((1 : Nat) :: List.replicate 19 0).contains 45 = false ∧
    idString (1 :: List.replicate 19 0) = none := by decide

/-- C1 (amended): the textual payload encoding is standard unpadded base58:
for a 19-byte payload its length is between 19 and 26 characters (not always
25), and the full textual form is the encoding alone, or tag, separator and
encoding when a 3-character tag is present. -/
theorem c1_encoding_length (bs pfx : List Nat)
    (hlb : bs.length = 19) (hlt : ∀ x ∈ bs, x < 256)
    (hv : validatePfx pfx true = true) (hpl : pfx.length = 3) :
    19 ≤ (b58Encode bs).length ∧ (b58Encode bs).length ≤ 26 ∧
    idString bs = some (b58Encode bs) ∧
    idString ((pfx ++ [sepByte]) ++ bs) = some ((pfx ++ [sepByte]) ++ b58Encode bs) := by
  obtain ⟨h1, h2⟩ := b58Encode_length_bounds bs hlb hlt
  obtain ⟨hc45, -, -⟩ := validatePfx_true_elim pfx hv
  exact ⟨h1, h2, idString_unprefixed bs hlb,
    idString_prefixed pfx bs (ne_of_contains_false hc45) hpl hlb⟩

/-- Witness for C1 at the all-sevens payload with tag `rid`. -/
theorem c1_encoding_length_witness :
    19 ≤ (b58Encode (List.replicate 19 7)).length ∧
    (b58Encode (List.replicate 19 7)).length ≤ 26 ∧
    idString (List.replicate 19 7) = some (b58Encode (List.replicate 19 7)) ∧
    idString (([114, 105, 100] ++ [sepByte]) ++ List.replicate 19 7) =
      some (([114, 105, 100] ++ [sepByte]) ++ b58Encode (List.replicate 19 7)) :=
  c1_encoding_length (List.replicate 19 7) [114, 105, 100] (by decide) (by decide)
    (by decide) (by decide)

/-- Counterexample for C1 as frozen: the identifier built by `FromBytes` from
19 zero bytes — a valid identifier — encodes to 19 characters, not 25. -/
theorem c1_counterexample :
    FromBytes (List.replicate 19 0) = PResult.ok (List.replicate 19 0) ∧
    idString (List.replicate 19 0) = some (List.replicate 19 49) ∧
    (List.replicate 19 49 : List Nat).length = 19 := by decide

/-- C6 (amended): a 24-character separator-free text fails with
`StringSizeMismatch`; a 25-character separator-free text does not always
succeed — it succeeds exactly when base58 decoding succeeds and produces at
least 19 bytes, and otherwise fails with `InvalidEncoding` or
`BytesSizeMismatch`; and `Parse` returns `StringSizeMismatch` exactly when
the payload part of the text (after the first separator, if any) is shorter
than 25 characters. -/
theorem c6_parse_sizes (text : List Nat) :
    (text.length = 24 → text.contains 45 = false →
      Parse text = PResult.err ParseErr.stringSize) ∧
    (text.length = 25 → text.contains 45 = false →
      ((∃ bs, b58Decode text = some bs ∧ 19 ≤ bs.length ∧ Parse text = PResult.ok bs) ∨
        (b58Decode text = none ∧ Parse text = PResult.err ParseErr.invalidEncoding) ∨
        (∃ bs, b58Decode text = some bs ∧ bs.length < 19 ∧
          Parse text = PResult.err ParseErr.bytesSize))) ∧
    (Parse text = PResult.err ParseErr.stringSize ↔ (payloadText text).length < 25) := by
  refine ⟨?h24, ?h25, ?hiff⟩
  · intro h24 hc
    unfold Parse
    rw [findIdx_no_sep text (ne_of_contains_false hc),
      if_neg (by simp only [stringEncodedLen, h24]; omega)]
  · intro h25 hc
    have hP : Parse text = parseInternal [] text :=
      Parse_unprefixed text (ne_of_contains_false hc) (by omega)
    have hPI : parseInternal [] text =
        match b58Decode text with
        | none => PResult.err ParseErr.invalidEncoding
        | some bs => FromBytes ([] ++ bs) := by
      unfold parseInternal
      rw [if_neg (by simp only [stringEncodedLen, h25]; omega),
        if_neg (by rw [validatePfx_nil_false]; simp)]
    rw [hP, hPI]
    cases hdec : b58Decode text with
    | none =>
      right; left
      exact ⟨rfl, rfl⟩
    | some bs =>
      by_cases hbl : 19 ≤ bs.length
      · left
        refine ⟨bs, rfl, hbl, ?he1⟩
        show FromBytes ([] ++ bs) = _
        unfold FromBytes
        rw [if_neg (by
          simp only [List.nil_append, byteLength, timeBytesLen, randomBytesLen]
          omega)]
        rw [List.nil_append]
      · right; right
        refine ⟨bs, rfl, by omega, ?he2⟩
        show FromBytes ([] ++ bs) = _
        unfold FromBytes
        rw [if_pos (by
          simp only [List.nil_append, byteLength, timeBytesLen, randomBytesLen]
          omega)]
  · unfold Parse payloadText
    cases hidx : text.findIdx? (fun a => a == sepByte) with
    | none =>
      show (if text.length ≥ stringEncodedLen then parseInternal [] text
          else PResult.err ParseErr.stringSize) = PResult.err ParseErr.stringSize ↔
        text.length < 25
      by_cases hge : text.length ≥ stringEncodedLen
      · rw [if_pos hge]
        simp only [stringEncodedLen] at hge
        exact ⟨fun hP => absurd hP (parseInternal_ne_stringSize [] text (by omega)),
          fun hlt => absurd hge (by omega)⟩
      · rw [if_neg hge]
        simp only [stringEncodedLen] at hge
        exact ⟨fun _ => by omega, fun _ => rfl⟩
    | some i =>
      show parseInternal (text.take (i + 1)) (text.drop (i + 1)) =
          PResult.err ParseErr.stringSize ↔ (text.drop (i + 1)).length < 25
      by_cases hlen : (text.drop (i + 1)).length < 25
      · rw [parseInternal_stringSize _ _ hlen]
        exact ⟨fun _ => hlen, fun _ => rfl⟩
      · exact ⟨fun hP => absurd hP (parseInternal_ne_stringSize _ _ (by omega)),
          fun hlt => absurd hlt hlen⟩

/-- Witness for C6: a 24-character separator-free string fails with
`StringSizeMismatch`. -/
theorem c6_parse_sizes_witness :
    Parse (List.replicate 24 49) = PResult.err ParseErr.stringSize :=
  (c6_parse_sizes (List.replicate 24 49)).1 (by decide) (by decide)

/-- Counterexample for C6 as frozen: the 25-character separator-free string
`2` followed by 24 `1`s decodes to only 18 bytes, so `Parse` fails with
`BytesSizeMismatch` instead of succeeding. -/
theorem c6_counterexample :
    ((50 : Nat) :: List.replicate 24 49).length = 25 ∧
    ((50 : Nat) :: List.replicate 24 49).contains 45 = false ∧
    Parse (50 :: List.replicate 24 49) = PResult.err ParseErr.bytesSize := by decide

/-- C3 (amended): parsing the textual form of a freshly generated identifier
reproduces its exact raw bytes, provided the generation tick count gives the
payload a big-endian value of at least 58^24 (true from about one month
after the 2022-01-01 epoch), so that the encoding has the 25 characters
`Parse` requires; right after the epoch the encoding is shorter and `Parse`
rejects it. -/
theorem c3_roundtrip (pfx : List Nat) (ticks : Nat) (rnd : List Nat) (id s : List Nat)
    (hv : validatePfx pfx true = true) (hrlt : ∀ x ∈ rnd, x < 256)
    (ht56 : ticks < 2 ^ 56) (hval : 58 ^ 24 ≤ ticks * 256 ^ 12)
    (hid : newID pfx ticks rnd = some id) (hs : idString id = some s) :
    Parse s = PResult.ok id :=
  generate_parse_round pfx ticks rnd id s hv hrlt ht56 hval hid hs

/-- Witness for C3: tag `rid`, tick count 2^48, zero randomness. -/
theorem c3_roundtrip_witness :
    Parse [114, 105, 100, 45, 66, 99, 114, 77, 65, 54, 83, 113, 90, 90, 118, 69, 112, 65,
        101, 122, 86, 57, 81, 109, 102, 72, 113, 104, 72] =
      PResult.ok [114, 105, 100, 45, 1, 0, 0, 0, 0, 0, 0, 0, 0, 0, 0, 0, 0, 0, 0, 0, 0, 0, 0] :=
  c3_roundtrip [114, 105, 100] (2 ^ 48) (List.replicate 12 0)
    [114, 105, 100, 45, 1, 0, 0, 0, 0, 0, 0, 0, 0, 0, 0, 0, 0, 0, 0, 0, 0, 0, 0]
    [114, 105, 100, 45, 66, 99, 114, 77, 65, 54, 83, 113, 90, 90, 118, 69, 112, 65, 101,
      122, 86, 57, 81, 109, 102, 72, 113, 104, 72]
    (by decide) (by decide) (by decide) (by decide) (by decide) (by decide)

/-- Counterexample for C3 as frozen: at tick 0 with zero randomness the
generated identifier is 19 zero bytes, its text is 19 characters, and
`Parse` rejects that text with `StringSizeMismatch` instead of returning the
identifier. -/
theorem c3_counterexample :
    newID [] 0 (List.replicate 12 0) = some (List.replicate 19 0) ∧
    idString (List.replicate 19 0) = some (List.replicate 19 49) ∧
    Parse (List.replicate 19 49) = PResult.err ParseErr.stringSize := by decide

theorem newID_some_pos (pfx : List Nat) (ticks : Nat) (rnd : List Nat)
    (hv : validatePfx pfx true = true) (hne : 0 < pfx.length) :
    newID pfx ticks rnd =
      some ((pfx ++ [sepByte]) ++ (timeBytes ticks ++ rndTail rnd)) := by
  rw [newID_some pfx ticks rnd hv, if_pos hne, List.append_assoc]

/-- C8 (amended): `Parse (GenerateWithPrefix "rid" ...)` succeeds and the
parsed identifier's text starts with `rid-`; the total length is 29 exactly
when the payload value lies in `[2^144, 58^25)` (ticks in
`[2^48, 58^25/2^96)`), and 30 for larger timestamps, since the encoded
payload is 25 or 26 characters, not always 25. -/
theorem c8_generate_rid (ticks : Nat) (rnd : List Nat) (s : List Nat)
    (hrlt : ∀ x ∈ rnd, x < 256)
    (ht48 : 2 ^ 48 ≤ ticks) (htup : (ticks + 1) * 256 ^ 12 ≤ 58 ^ 25)
    (hs : GenerateWithPfx [114, 105, 100] ticks rnd = some s) :
    s.take 4 = [114, 105, 100, 45] ∧ s.length = 29 ∧
    ∃ id, Parse s = PResult.ok id ∧ idString id = some s := by
  have hvrid : validatePfx [114, 105, 100] true = true := by decide
  have hp45 : ∀ c ∈ ([114, 105, 100] : List Nat), c ≠ 45 := by decide
  have ht56 : ticks < 2 ^ 56 := by
    have h1 : (58 : Nat) ^ 25 < 2 ^ 56 * 256 ^ 12 := by norm_num
    have h2 := lt_of_le_of_lt htup h1
    have h3 := Nat.lt_of_mul_lt_mul_right h2
    omega
  have hplen := payload_length ticks rnd
  have hplt := payload_lt ticks rnd hrlt
  have hlo : 2 ^ 144 ≤ beVal 256 (timeBytes ticks ++ rndTail rnd) := by
    rw [payload_val ticks ht56 rnd]
    have h1 : (2 : Nat) ^ 144 ≤ ticks * 256 ^ 12 := by
      calc (2 : Nat) ^ 144 = 2 ^ 48 * 256 ^ 12 := by norm_num
        _ ≤ ticks * 256 ^ 12 := Nat.mul_le_mul_right _ ht48
    omega
  have hhi : beVal 256 (timeBytes ticks ++ rndTail rnd) < 58 ^ 25 := by
    rw [payload_val ticks ht56 rnd]
    have h1 : beVal 256 (rndTail rnd) < 256 ^ 12 := beVal_rndTail_lt rnd hrlt
    have h2 : ticks * 256 ^ 12 + 256 ^ 12 = (ticks + 1) * 256 ^ 12 := by ring
    omega
  have hvval : 58 ^ 24 ≤ beVal 256 (timeBytes ticks ++ rndTail rnd) :=
    le_trans (by norm_num : (58 : Nat) ^ 24 ≤ 2 ^ 144) hlo
  unfold GenerateWithPfx at hs
  rw [show trimSuffixSep [114, 105, 100] = [114, 105, 100] from by decide,
    newID_some_pos [114, 105, 100] ticks rnd hvrid (by decide)] at hs
  have hs2 : idString (([114, 105, 100] ++ [sepByte]) ++ (timeBytes ticks ++ rndTail rnd)) =
      some s := hs
  rw [idString_prefixed [114, 105, 100] _ hp45 (by decide) hplen] at hs2
  have hs' : s = ([114, 105, 100] ++ [sepByte]) ++
      b58Encode (timeBytes ticks ++ rndTail rnd) := by
    simpa [eq_comm] using hs2
  subst hs'
  have h25 : (b58Encode (timeBytes ticks ++ rndTail rnd)).length = 25 :=
    b58Encode_len25 _ hplen hplt hlo hhi
  refine ⟨?htake, ?hlen, ?hparse⟩
  · rw [List.take_left' (by decide)]
    decide
  · simp only [List.length_append, List.length_cons, List.length_nil, h25]
  · refine ⟨([114, 105, 100] ++ [sepByte]) ++ (timeBytes ticks ++ rndTail rnd), ?hp, ?hstr⟩
    · rw [Parse_prefixed [114, 105, 100] _ hp45 (by decide)]
      exact parseInternal_round ([114, 105, 100] ++ [sepByte]) _
        (by rw [validatePfx_sep_append]; exact hvrid) hplen hplt hvval
    · exact idString_prefixed [114, 105, 100] _ hp45 (by decide) hplen

/-- Witness for C8 at tick count 2^49 with zero randomness. -/
theorem c8_generate_rid_witness :
    ([114, 105, 100, 45, 78, 69, 104, 104, 75, 66, 116, 103, 56, 56, 113, 85, 100, 76, 74,
        121, 121, 72, 112, 89, 75, 97, 103, 80, 90] : List Nat).take 4 =
      [114, 105, 100, 45] ∧
    ([114, 105, 100, 45, 78, 69, 104, 104, 75, 66, 116, 103, 56, 56, 113, 85, 100, 76, 74,
        121, 121, 72, 112, 89, 75, 97, 103, 80, 90] : List Nat).length = 29 ∧
    ∃ id, Parse [114, 105, 100, 45, 78, 69, 104, 104, 75, 66, 116, 103, 56, 56, 113, 85,
        100, 76, 74, 121, 121, 72, 112, 89, 75, 97, 103, 80, 90] = PResult.ok id ∧
      idString id = some [114, 105, 100, 45, 78, 69, 104, 104, 75, 66, 116, 103, 56, 56,
        113, 85, 100, 76, 74, 121, 121, 72, 112, 89, 75, 97, 103, 80, 90] :=
  c8_generate_rid (2 ^ 49) (List.replicate 12 0)
    [114, 105, 100, 45, 78, 69, 104, 104, 75, 66, 116, 103, 56, 56, 113, 85, 100, 76, 74,
      121, 121, 72, 112, 89, 75, 97, 103, 80, 90]
    (by decide) (by decide) (by decide) (by decide)

/-- Counterexample for C8 as frozen: at tick count 2^55 the generated `rid`
text has 30 characters, not 29. -/
theorem c8_counterexample :
    (GenerateWithPfx [114, 105, 100] (2 ^ 55) (List.replicate 12 0)).map List.length =
      some 30 := by decide

theorem newID_string_form (pfx : List Nat) (ticks : Nat) (rnd : List Nat) (id s : List Nat)
    (hv : validatePfx pfx true = true)
    (hid : newID pfx ticks rnd = some id) (hs : idString id = some s) :
    s = (if pfx.length > 0 then pfx ++ [sepByte] else []) ++
      b58Encode (timeBytes ticks ++ rndTail rnd) := by
  obtain ⟨hc45, -, hlen03⟩ := validatePfx_true_elim pfx hv
  have hp45 := ne_of_contains_false hc45
  rw [newID_some pfx ticks rnd hv] at hid
  have hplen := payload_length ticks rnd
  rcases hlen03 with h0 | h3
  · have hnil : pfx = [] := List.eq_nil_of_length_eq_zero h0
    subst hnil
    rw [if_neg (by simp)]
    have hid' : id = timeBytes ticks ++ rndTail rnd := by
      simpa [eq_comm] using hid
    subst hid'
    rw [idString_unprefixed _ hplen] at hs
    simpa [eq_comm] using hs
  · rw [if_pos (by omega)]
    have hid' : id = (pfx ++ [sepByte]) ++ (timeBytes ticks ++ rndTail rnd) := by
      rw [if_pos (by omega)] at hid
      rw [← List.append_assoc]
      simpa [eq_comm] using hid
    subst hid'
    rw [idString_prefixed pfx _ hp45 h3 hplen] at hs
    simpa [eq_comm] using hs

/-- C2 (amended): for two identifiers generated with the same valid tag at
tick counts `t1 < t2`, the textual order is strictly increasing provided
both payload values fall in the band `[2^144, 58^25)` (ticks in
`[2^48, 58^25/2^96)`), where both encodings have exactly 25 characters; the
guarantee is not unconditional — across an encoded-length boundary the
lexical order inverts. -/
theorem c2_ordering (pfx : List Nat) (t1 t2 : Nat) (r1 r2 : List Nat)
    (id1 id2 s1 s2 : List Nat)
    (hv : validatePfx pfx true = true)
    (hr1 : ∀ x ∈ r1, x < 256) (hr2 : ∀ x ∈ r2, x < 256)
    (h48 : 2 ^ 48 ≤ t1) (h12 : t1 < t2) (hup : (t2 + 1) * 256 ^ 12 ≤ 58 ^ 25)
    (hid1 : newID pfx t1 r1 = some id1) (hid2 : newID pfx t2 r2 = some id2)
    (hs1 : idString id1 = some s1) (hs2 : idString id2 = some s2) :
    lexLt s1 s2 = true := by
  have ht2 : t2 < 2 ^ 56 := by
    have h1 : (58 : Nat) ^ 25 < 2 ^ 56 * 256 ^ 12 := by norm_num
    have h2 := lt_of_le_of_lt hup h1
    have h3 := Nat.lt_of_mul_lt_mul_right h2
    omega
  have ht1 : t1 < 2 ^ 56 := by omega
  have hform1 := newID_string_form pfx t1 r1 id1 s1 hv hid1 hs1
  have hform2 := newID_string_form pfx t2 r2 id2 s2 hv hid2 hs2
  subst hform1
  subst hform2
  rw [lexLt_append_same]
  have hplen1 := payload_length t1 r1
  have hplen2 := payload_length t2 r2
  have hplt1 := payload_lt t1 r1 hr1
  have hplt2 := payload_lt t2 r2 hr2
  have hlo1 : 2 ^ 144 ≤ beVal 256 (timeBytes t1 ++ rndTail r1) := by
    rw [payload_val t1 ht1 r1]
    have h1 : (2 : Nat) ^ 144 ≤ t1 * 256 ^ 12 := by
      calc (2 : Nat) ^ 144 = 2 ^ 48 * 256 ^ 12 := by norm_num
        _ ≤ t1 * 256 ^ 12 := Nat.mul_le_mul_right _ h48
    omega
  have hlt12 : beVal 256 (timeBytes t1 ++ rndTail r1) <
      beVal 256 (timeBytes t2 ++ rndTail r2) := by
    rw [payload_val t1 ht1 r1, payload_val t2 ht2 r2]
    have hb1 : beVal 256 (rndTail r1) < 256 ^ 12 := beVal_rndTail_lt r1 hr1
    have hm : (t1 + 1) * 256 ^ 12 ≤ t2 * 256 ^ 12 := Nat.mul_le_mul_right _ (by omega)
    have he : t1 * 256 ^ 12 + 256 ^ 12 = (t1 + 1) * 256 ^ 12 := by ring
    omega
  have hhi2 : beVal 256 (timeBytes t2 ++ rndTail r2) < 58 ^ 25 := by
    rw [payload_val t2 ht2 r2]
    have hb2 : beVal 256 (rndTail r2) < 256 ^ 12 := beVal_rndTail_lt r2 hr2
    have he : t2 * 256 ^ 12 + 256 ^ 12 = (t2 + 1) * 256 ^ 12 := by ring
    omega
  have hhi1 : beVal 256 (timeBytes t1 ++ rndTail r1) < 58 ^ 25 := lt_trans hlt12 hhi2
  have hlo2 : 2 ^ 144 ≤ beVal 256 (timeBytes t2 ++ rndTail r2) :=
    le_trans hlo1 (le_of_lt hlt12)
  have h64v1 : beVal 256 (timeBytes t1 ++ rndTail r1) < 58 ^ 64 :=
    lt_of_lt_of_le hhi1 (Nat.pow_le_pow_right (by norm_num) (by norm_num))
  have h64v2 : beVal 256 (timeBytes t2 ++ rndTail r2) < 58 ^ 64 :=
    lt_of_lt_of_le hhi2 (Nat.pow_le_pow_right (by norm_num) (by norm_num))
  rw [b58Encode_digits_form _ hplen1 hplt1 hlo1, b58Encode_digits_form _ hplen2 hplt2 hlo2]
  apply lexLt_of_beVal_lt
  · rw [beDigits_len25 _ hlo1 hhi1, beDigits_len25 _ hlo2 hhi2]
  · exact beDigits_mem_lt 58 _ (by norm_num) h64v1
  · exact beDigits_mem_lt 58 _ (by norm_num) h64v2
  · rw [beVal_beDigits 58 _ (by norm_num) h64v1, beVal_beDigits 58 _ (by norm_num) h64v2]
    exact hlt12

/-- Witness for C2: unprefixed identifiers at consecutive ticks 2^48 and
2^48 + 1 with zero randomness. -/
theorem c2_ordering_witness :
    lexLt [66, 99, 114, 77, 65, 54, 83, 113, 90, 90, 118, 69, 112, 65, 101, 122, 86, 57,
        81, 109, 102, 72, 113, 104, 72]
      [66, 99, 114, 77, 65, 54, 83, 113, 101, 81, 55, 88, 71, 110, 76, 97, 117, 54, 69,
        104, 67, 114, 69, 113, 117] = true :=
  c2_ordering [] (2 ^ 48) (2 ^ 48 + 1) (List.replicate 12 0) (List.replicate 12 0)
    [1, 0, 0, 0, 0, 0, 0, 0, 0, 0, 0, 0, 0, 0, 0, 0, 0, 0, 0]
    [1, 0, 0, 0, 0, 0, 1, 0, 0, 0, 0, 0, 0, 0, 0, 0, 0, 0, 0]
    [66, 99, 114, 77, 65, 54, 83, 113, 90, 90, 118, 69, 112, 65, 101, 122, 86, 57, 81,
      109, 102, 72, 113, 104, 72]
    [66, 99, 114, 77, 65, 54, 83, 113, 101, 81, 55, 88, 71, 110, 76, 97, 117, 54, 69, 104,
      67, 114, 69, 113, 117]
    (by decide) (by decide) (by decide) (by decide) (by decide) (by decide) (by decide)
    (by decide) (by decide) (by decide)

/-- Counterexample for C2 as frozen: one tick later, at the 25/26-character
encoding boundary, the later identifier's text is lexically smaller. -/
theorem c2_counterexample :
    newID [] 1537518164588188 [198, 233, 77, 222, 88, 105, 244, 8, 249, 255, 255, 255] =
      some [5, 118, 93, 88, 9, 54, 156, 198, 233, 77, 222, 88, 105, 244, 8, 249, 255,
        255, 255] ∧
    newID [] 1537518164588189 (List.replicate 12 0) =
      some [5, 118, 93, 88, 9, 54, 157, 0, 0, 0, 0, 0, 0, 0, 0, 0, 0, 0, 0] ∧
    idString [5, 118, 93, 88, 9, 54, 156, 198, 233, 77, 222, 88, 105, 244, 8, 249, 255,
        255, 255] = some (List.replicate 25 122) ∧
    idString [5, 118, 93, 88, 9, 54, 157, 0, 0, 0, 0, 0, 0, 0, 0, 0, 0, 0, 0] =
      some [50, 49, 49, 49, 49, 49, 49, 49, 49, 50, 53, 86, 53, 88, 51, 115, 111, 113,
        101, 97, 81, 122, 113, 55, 103, 98] ∧
    (1537518164588188 : Nat) < 1537518164588189 ∧
    lexLt [50, 49, 49, 49, 49, 49, 49, 49, 49, 50, 53, 86, 53, 88, 51, 115, 111, 113, 101,
        97, 81, 122, 113, 55, 103, 98] (List.replicate 25 122) = true := by decide
